import Mathlib

/-!
Verification development for the real-time transcription-to-hint pipeline
(server application under `server/app`).  Python code is shallowly embedded:
Python strings become `List Char`, dictionaries become association lists,
`asyncio.Queue` becomes a plain list, wall-clock times become rationals, and
stateful methods become pure state-passing functions.  Each embedded
definition mirrors one function of the source tree; theorems at the end of
the file settle the specification claims against these definitions.
-/

namespace Assistant

/-- Python strings are modelled as lists of characters. -/
abbrev PyStr := List Char

/-- Characters treated as whitespace by Python's `str.strip()` (ASCII part). -/
def pyWS (c : Char) : Bool :=
  c = ' ' || c = '\t' || c = '\n' || c = '\x0d' || c = '\x0b' || c = '\x0c'

/-- Model of Python `str.strip()`: drop leading and trailing whitespace. -/
def pyStrip (l : PyStr) : PyStr :=
  ((l.dropWhile pyWS).reverse.dropWhile pyWS).reverse

/-- Model of Python `str.split(sep)` for a one-character separator.
Like Python, splitting the empty string yields one empty piece. -/
def splitChar (sep : Char) : PyStr → List PyStr
  | [] => [[]]
  | c :: rest =>
    if c = sep then [] :: splitChar sep rest
    else
      match splitChar sep rest with
      | [] => [[c]]
      | l :: ls => (c :: l) :: ls

/-- Model of Python `sep.join(pieces)` for a one-character separator. -/
def joinSep (sep : Char) : List PyStr → PyStr
  | [] => []
  | [b] => b
  | b :: c :: rest => b ++ sep :: joinSep sep (c :: rest)

/-- Model of Python `sep.join(pieces)` for an arbitrary separator string. -/
def joinWith (sep : PyStr) : List PyStr → PyStr
  | [] => []
  | [b] => b
  | b :: c :: rest => b ++ sep ++ joinWith sep (c :: rest)

/-- Model of Python `str.isdigit` restricted to ASCII digits. -/
def pyIsDigit (c : Char) : Bool := '0' ≤ c && c ≤ '9'

/-- Model of Python `str.split(sep, 1)`: the part before the first
occurrence of `sep`, and the remainder if `sep` occurs at all. -/
def splitFirst (sep : Char) : PyStr → PyStr × Option PyStr
  | [] => ([], none)
  | c :: rest =>
    if c = sep then ([], some rest)
    else
      let p := splitFirst sep rest
      (c :: p.1, p.2)

/-! ### LLMService._format_hint (services/llm_service.py lines 235-260) -/

/-- Constant `MAX_HINT_POINTS` from `config.py`. -/
def maxHintPoints : ℕ := 3

/-- The bullet marker `"- "`. -/
def dashSpace : PyStr := ['-', ' ']

/-- The second bullet marker literal in the source.  The file contains the
bytes of a UTF-8 mojibake sequence, i.e. the three characters U+00E2 U+20AC
U+00A2 followed by a space, not the single bullet character U+2022. -/
def mojibakeBullet : PyStr := ['â', '€', '¢', ' ']

/-- The bullet marker `"* "`. -/
def starSpace : PyStr := ['*', ' ']

/-- The test `line.startswith("- ") or line.startswith("â€¢ ") or
line.startswith("* ")` from `_format_hint`. -/
def isBulletLine (l : PyStr) : Bool :=
  dashSpace.isPrefixOf l || mojibakeBullet.isPrefixOf l || starSpace.isPrefixOf l

/-- One iteration of the `for line in lines` loop of `_format_hint`,
with `acc` holding the bullet points accumulated so far in reverse order. -/
def procLine (acc : List PyStr) (raw : PyStr) : List PyStr :=
  let line := pyStrip raw
  match line with
  | [] => acc
  | c :: _ =>
    if isBulletLine line then line :: acc
    else if pyIsDigit c && (line.take 3).contains '.' then
      match (splitFirst '.' line).2 with
      | some rest => (dashSpace ++ pyStrip rest) :: acc
      | none => acc
    else
      match acc with
      | [] => acc
      | b :: bs => (b ++ ' ' :: line) :: bs

/-- The bullet-point list computed by `_format_hint` (after the
`[:MAX_HINT_POINTS]` truncation). -/
def hintBullets (t : PyStr) : List PyStr :=
  (((splitChar '\n' (pyStrip t)).foldl procLine []).reverse).take maxHintPoints

/-- Model of `LLMService._format_hint`. -/
def formatHint (t : PyStr) : PyStr := joinSep '\n' (hintBullets t)

/-! ### Transcript aggregation (services/orchestrator.py) -/

/-- Speaker identifier from `models/events.py`. -/
inductive Speaker where
  | me
  | them
deriving DecidableEq, Repr

/-- A transcript segment (`TranscriptSegment` dataclass). -/
structure TranscriptSegment where
  speaker : Speaker
  text : PyStr
  segmentId : String
  timestamp : ℚ
  isComplete : Bool
deriving DecidableEq, Repr

/-- Payload of a `TranscriptDelta` or `TranscriptCompleted` event. -/
structure TranscriptEvent where
  speaker : Speaker
  text : PyStr
  segmentId : String
  timestamp : ℚ
deriving DecidableEq, Repr

/-- State of a `TextAggregator`.  The Python `dict` of open segments is an
insertion-ordered association list; the `deque(maxlen=20)` history is a list
whose append drops the oldest entry at capacity. -/
structure TextAggregator where
  currentSegments : List (String × TranscriptSegment)
  history : List TranscriptSegment
  pendingText : PyStr
  pendingSpeaker : Option Speaker
  pendingSegmentId : Option String
  lastDeltaTime : ℚ
deriving DecidableEq, Repr

/-- A fresh `TextAggregator()`. -/
def TextAggregator.init : TextAggregator :=
  { currentSegments := [], history := [], pendingText := [],
    pendingSpeaker := none, pendingSegmentId := none, lastDeltaTime := 0 }

/-- Lookup in the association list modelling `self.current_segments`. -/
def lookupSeg (cs : List (String × TranscriptSegment)) (k : String) :
    Option TranscriptSegment :=
  match cs.find? (fun p => p.1 = k) with
  | some p => some p.2
  | none => none

/-- In-place value update of the association list (Python dict assignment to
an existing key keeps insertion order). -/
def updateSeg (cs : List (String × TranscriptSegment)) (k : String)
    (v : TranscriptSegment) : List (String × TranscriptSegment) :=
  cs.map (fun p => if p.1 = k then (k, v) else p)

/-- Removal from the association list (Python `dict.pop`). -/
def eraseSeg (cs : List (String × TranscriptSegment)) (k : String) :
    List (String × TranscriptSegment) :=
  cs.filter (fun p => ¬ p.1 = k)

/-- Capacity of the history deque (`deque(maxlen=20)`). -/
def historyMaxLen : ℕ := 20

/-- Append to a `deque(maxlen=20)`: at capacity the oldest entry is dropped. -/
def dequeAppend (h : List TranscriptSegment) (s : TranscriptSegment) :
    List TranscriptSegment :=
  (if h.length < historyMaxLen then h else h.tail) ++ [s]

/-- Model of `TextAggregator.add_delta`.  `now` is the value of
`time.time()` observed during the call. -/
def addDelta (a : TextAggregator) (e : TranscriptEvent) (now : ℚ) :
    TextAggregator :=
  let cs :=
    match lookupSeg a.currentSegments e.segmentId with
    | some _ => a.currentSegments
    | none =>
        a.currentSegments ++
          [(e.segmentId,
            { speaker := e.speaker, text := [], segmentId := e.segmentId,
              timestamp := e.timestamp, isComplete := false })]
  match lookupSeg cs e.segmentId with
  | some seg =>
      let seg' := { seg with text := seg.text ++ e.text }
      { a with
        currentSegments := updateSeg cs e.segmentId seg',
        lastDeltaTime := now,
        pendingText := seg'.text,
        pendingSpeaker := some seg'.speaker,
        pendingSegmentId := some e.segmentId }
  | none => a

/-- Model of `TextAggregator.complete_segment`; returns the new aggregator
state and the completed segment handed back to the caller. -/
def completeSegment (a : TextAggregator) (e : TranscriptEvent) :
    TextAggregator × TranscriptSegment :=
  let (seg, cs) :=
    match lookupSeg a.currentSegments e.segmentId with
    | some s =>
        ({ s with text := e.text, isComplete := true },
         eraseSeg a.currentSegments e.segmentId)
    | none =>
        ({ speaker := e.speaker, text := e.text, segmentId := e.segmentId,
           timestamp := e.timestamp, isComplete := true },
         a.currentSegments)
  let a' := { a with currentSegments := cs, history := dequeAppend a.history seg }
  let a'' :=
    if a'.pendingSegmentId = some e.segmentId then
      { a' with pendingText := [], pendingSpeaker := none,
                pendingSegmentId := none }
    else a'
  (a'', seg)

/-- Rendering of one history entry inside `get_global_context`:
`f"[ME] ..."` or `f"[THEM] ..."`. -/
def renderLine (s : TranscriptSegment) : PyStr :=
  (if s.speaker = Speaker.me then "[ME]".toList else "[THEM]".toList) ++
    ' ' :: s.text

/-- Default `max_chars` of `get_global_context`. -/
def globalContextMaxChars : ℕ := 500

/-- The `for segment in reversed(self.history)` loop of
`get_global_context`: walk the given (already reversed, newest-first) list,
keeping each rendered line that still fits the character budget and stopping
at the first line that does not. -/
def collectLines (maxChars : ℕ) : List TranscriptSegment → ℕ → List PyStr
  | [], _ => []
  | s :: rest, total =>
    let t := renderLine s
    if total + t.length > maxChars then []
    else t :: collectLines maxChars rest (total + t.length)

/-- Model of `TextAggregator.get_global_context` (with the default
`max_chars = 500`). -/
def getGlobalContext (a : TextAggregator) : PyStr :=
  joinSep '\n' (collectLines globalContextMaxChars a.history.reverse 0).reverse

/-! ### Question detection and per-mode dispatch (services/orchestrator.py) -/

/-- Word characters for the regex `\b` boundary (`[A-Za-z0-9_]`, the ASCII
portion of Python's `\w`). -/
def isWordChar (c : Char) : Bool :=
  ('a' ≤ c && c ≤ 'z') || ('A' ≤ c && c ≤ 'Z') || ('0' ≤ c && c ≤ '9') || c = '_'

/-- The anchored question-opener patterns of `QUESTION_WORDS`, without the
`^` anchor and trailing `\b`. -/
def questionWords : List PyStr :=
  ["what", "why", "how", "when", "where", "who", "which", "can you",
   "could you", "would you", "tell me", "explain", "describe",
   "walk me through", "give me an example"].map String.toList

/-- Matching of one pattern `^word\b` (case already folded): the text starts
with the word and the next character, if any, is not a word character. -/
def matchesAnchored (w : PyStr) (s : PyStr) : Bool :=
  w.isPrefixOf s &&
    (match s.drop w.length with
     | [] => true
     | c :: _ => ¬ isWordChar c)

/-- Model of `is_question` from `orchestrator.py`: strip, test for `?`
anywhere, then test the case-insensitive anchored patterns. -/
def isQuestion (t : PyStr) : Bool :=
  let s := pyStrip t
  if s.contains '?' then true
  else questionWords.any (fun w => matchesAnchored w (s.map Char.toLower))

/-- Session mode from `models/session.py`. -/
inductive SessionMode where
  | interviewAssistant
  | meetingAssistant
deriving DecidableEq, Repr

/-- Constant `HINT_RATE_LIMIT_MS` from `config.py`. -/
def hintRateLimitMs : ℚ := 2000

/-- A text chunk as dispatched by the orchestrator (only the fields the
dispatch logic inspects are modelled; `text` feeds `is_question`). -/
structure OrchChunk where
  speaker : Speaker
  text : PyStr
  isQuestionFlag : Bool
deriving DecidableEq, Repr

/-- Model of `Orchestrator._process_interview`: publish only Them-speaker
question chunks.  Returns whether `TEXT_CHUNK_READY` is published. -/
def processInterview (c : OrchChunk) : Bool :=
  c.speaker = Speaker.them && c.isQuestionFlag

/-- Model of `Orchestrator._process_meeting`.  State is `_last_hint_time`;
`now` is `time.time()` at the call.  Returns the new `_last_hint_time` and
whether `TEXT_CHUNK_READY` is published. -/
def processMeeting (lastHintTime : ℚ) (now : ℚ) (c : OrchChunk) : ℚ × Bool :=
  if ¬ c.speaker = Speaker.them then (lastHintTime, false)
  else if (now - lastHintTime) * 1000 < hintRateLimitMs then (lastHintTime, false)
  else (now, true)

/-- Model of `Orchestrator._process_chunk`: the hints-enabled gate followed
by per-mode dispatch. -/
def processChunk (mode : SessionMode) (hintsEnabled : Bool)
    (lastHintTime : ℚ) (now : ℚ) (c : OrchChunk) : ℚ × Bool :=
  if ¬ hintsEnabled then (lastHintTime, false)
  else
    match mode with
    | SessionMode.interviewAssistant => (lastHintTime, processInterview c)
    | SessionMode.meetingAssistant => processMeeting lastHintTime now c

/-- Processing of a timed sequence of chunks through `_process_chunk`,
collecting the chunks actually published as `TEXT_CHUNK_READY`. -/
def processChunkSeq (mode : SessionMode) (hintsEnabled : Bool)
    (lastHintTime : ℚ) : List (ℚ × OrchChunk) → ℚ × List OrchChunk
  | [] => (lastHintTime, [])
  | (now, c) :: rest =>
    let r := processChunk mode hintsEnabled lastHintTime now c
    let tail := processChunkSeq mode hintsEnabled r.1 rest
    (tail.1, (if r.2 then [c] else []) ++ tail.2)

/-! ### Session manager (services/session_manager.py) -/

/-- Session lifecycle states from `models/session.py`. -/
inductive SessionState where
  | created
  | active
  | paused
  | stopped
deriving DecidableEq, Repr

/-- State of the `SessionManager` together with every session object the
process has created.  Sessions are identified by their creation index;
`sessions.get? i` is the state of session `i`.  `current` is
`self.current_session`. -/
structure ManagerState where
  sessions : List SessionState
  current : Option ℕ
deriving DecidableEq, Repr

/-- An initial manager with no sessions (`SessionManager.__init__`). -/
def ManagerState.init : ManagerState := { sessions := [], current := none }

/-- Operations of the manager exercised over arbitrary session objects. -/
inductive ManagerOp where
  | create
  | start (i : ℕ)
  | stop (i : ℕ)
  | destroy (i : ℕ)
deriving DecidableEq, Repr

/-- Model of `SessionManager._stop_session` applied to session `i`:
a no-op when already stopped, otherwise the state becomes Stopped. -/
def stopAt (st : ManagerState) (i : ℕ) : ManagerState :=
  match st.sessions.get? i with
  | some s => if s = SessionState.stopped then st
              else { st with sessions := st.sessions.set i SessionState.stopped }
  | none => st

/-- One manager operation (`create_session`, `start_session`,
`stop_session`, `destroy_session`). -/
def managerStep (st : ManagerState) : ManagerOp → ManagerState
  | ManagerOp.create =>
    let st' :=
      match st.current with
      | some i =>
          if st.sessions.get? i = some SessionState.active then stopAt st i else st
      | none => st
    { sessions := st'.sessions ++ [SessionState.created],
      current := some st'.sessions.length }
  | ManagerOp.start i =>
    if st.sessions.get? i = some SessionState.created then
      { st with sessions := st.sessions.set i SessionState.active }
    else st
  | ManagerOp.stop i => stopAt st i
  | ManagerOp.destroy i =>
    if st.current = some i then { stopAt st i with current := none } else st

/-- Execution of a sequence of manager operations. -/
def managerExec (st : ManagerState) (ops : List ManagerOp) : ManagerState :=
  ops.foldl managerStep st

/-- Number of sessions currently in state Active. -/
def activeCount (st : ManagerState) : ℕ :=
  st.sessions.countP (fun s => s = SessionState.active)

/-- A run in which `start_session` is only ever invoked on the manager's
current session (the discipline the connection handler follows for its own
session). -/
def okRun (st : ManagerState) : List ManagerOp → Prop
  | [] => True
  | op :: rest =>
    (match op with
     | ManagerOp.start i => st.current = some i
     | _ => True) ∧ okRun (managerStep st op) rest

instance okRunDecidable (st : ManagerState) (ops : List ManagerOp) :
    Decidable (okRun st ops) := by
  induction ops generalizing st with
  | nil => exact isTrue trivial
  | cons op rest ih =>
    have : Decidable ((match op with
       | ManagerOp.start i => st.current = some i
       | _ => True) ∧ okRun (managerStep st op) rest) := by
      have hd := ih (managerStep st op)
      cases op <;> exact instDecidableAnd
    exact this

/-! ### Audio ingress (routes/websocket.py, ConnectionHandler._handle_audio) -/

/-- Constant `AUDIO_QUEUE_MAX_SIZE` from `config.py`. -/
def audioQueueMaxSize : ℕ := 200

/-- The per-session state touched by `_handle_audio`: the two frame queues
(front = oldest) and the statistics counters. -/
structure AudioSession where
  state : SessionState
  micQueue : List (List ℕ)
  systemQueue : List (List ℕ)
  totalFramesMic : ℕ
  totalFramesSystem : ℕ
  droppedFramesMic : ℕ
  droppedFramesSystem : ℕ
deriving DecidableEq, Repr

/-- The connection handler's state: `self.session` (possibly absent) plus a
count of error messages sent to the client. -/
structure HandlerState where
  session : Option AudioSession
  errorsSent : ℕ
deriving DecidableEq, Repr

/-- The try/except enqueue of `_handle_audio`: append when below capacity,
otherwise drop the oldest frame, enqueue the new one and count a drop. -/
def enqueueDropOldest (q : List (List ℕ)) (frame : List ℕ) :
    List (List ℕ) × ℕ :=
  if q.length < audioQueueMaxSize then (q ++ [frame], 0)
  else (q.tail ++ [frame], 1)

/-- Model of `ConnectionHandler._handle_audio` for one binary message
`data` (a list of byte values). -/
def handleAudio (h : HandlerState) (data : List ℕ) : HandlerState :=
  match h.session with
  | none => h
  | some s =>
    if ¬ s.state = SessionState.active then h
    else if data.length < 2 then h
    else
      match data with
      | [] => h
      | channelId :: pcm =>
        if channelId = 0 then
          let r := enqueueDropOldest s.micQueue pcm
          let s' := { s with micQueue := r.1,
                             totalFramesMic := s.totalFramesMic + 1,
                             droppedFramesMic := s.droppedFramesMic + r.2 }
          { h with session := some s' }
        else if channelId = 1 then
          let r := enqueueDropOldest s.systemQueue pcm
          let s' := { s with systemQueue := r.1,
                             totalFramesSystem := s.totalFramesSystem + 1,
                             droppedFramesSystem := s.droppedFramesSystem + r.2 }
          { h with session := some s' }
        else h

/-- Delivery of a batch of audio messages, oldest first. -/
def handleAudioSeq (h : HandlerState) (msgs : List (List ℕ)) : HandlerState :=
  msgs.foldl handleAudio h

/-! ### Completion streamer response handling (services/llm_service.py,
LLMService._generate_hint from the point the upstream response is open) -/

/-- Outcome of parsing one SSE line inside the `async for line` loop.  The
JSON decoding itself is abstracted: a line is blank or non-`data:` noise, the
`[DONE]` sentinel, a line whose JSON fails to parse, or a line carrying a
(possibly empty) `choices[0].delta.content` token. -/
inductive StreamLine where
  | noise
  | done
  | parseFailure
  | token (t : PyStr)
deriving DecidableEq, Repr

/-- Events the service can publish on the bus while handling one request. -/
inductive LlmEvent where
  | hintToken (t : PyStr)
  | hintCompleted (finalText : PyStr)
  | llmError
deriving DecidableEq, Repr

/-- Result of one `_generate_hint` call: the events published, and the
deltas applied to `stats.hints_generated` and `stats.llm_errors`. -/
structure GenOutcome where
  events : List LlmEvent
  hintsGeneratedDelta : ℕ
  llmErrorsDelta : ℕ
deriving DecidableEq, Repr

/-- The non-empty tokens extracted by the SSE loop, in order, up to the
`[DONE]` sentinel. -/
def streamTokens : List StreamLine → List PyStr
  | [] => []
  | StreamLine.noise :: rest => streamTokens rest
  | StreamLine.done :: _ => []
  | StreamLine.parseFailure :: rest => streamTokens rest
  | StreamLine.token t :: rest =>
    if t.isEmpty then streamTokens rest else t :: streamTokens rest

/-- The upstream interaction as seen by the `try` block: either the HTTP
response opened with a status code and a stream of SSE lines, or some
exception was raised inside the block. -/
inductive TryOutcome where
  | response (status : ℕ) (stream : List StreamLine)
  | raisedException
deriving DecidableEq, Repr

/-- Model of `_generate_hint` for one request, with the cancel flag never
set.  A non-200 status logs and returns; a normal stream publishes one
`HINT_TOKEN` per non-empty token and, when text accumulated, a formatted
`HINT_COMPLETED` and a `hints_generated` increment; an exception publishes
`LLM_ERROR` and increments `llm_errors`. -/
def generateHint : TryOutcome → GenOutcome
  | TryOutcome.raisedException =>
    { events := [LlmEvent.llmError], hintsGeneratedDelta := 0,
      llmErrorsDelta := 1 }
  | TryOutcome.response status stream =>
    if ¬ status = 200 then
      { events := [], hintsGeneratedDelta := 0, llmErrorsDelta := 0 }
    else
      let toks := streamTokens stream
      let collected := toks.foldl (fun acc t => acc ++ t) []
      if collected.isEmpty then
        { events := toks.map LlmEvent.hintToken, hintsGeneratedDelta := 0,
          llmErrorsDelta := 0 }
      else
        { events := toks.map LlmEvent.hintToken ++
            [LlmEvent.hintCompleted (formatHint collected)],
          hintsGeneratedDelta := 1, llmErrorsDelta := 0 }

/-! ### Knowledge retrieval (services/knowledge_service.py,
KnowledgeService.retrieve) -/

/-- Constant `MAX_CONTEXT_TOKENS` from `config.py`. -/
def maxContextTokens : ℕ := 2000

/-- The character budget `max_chars = MAX_CONTEXT_TOKENS * 4` of
`retrieve`. -/
def retrieveMaxChars : ℕ := maxContextTokens * 4

/-- One indexed chunk: its text and its keyword set (a Python `set`,
modelled as a duplicate-free list). -/
structure KChunk where
  text : PyStr
  keywords : List String
deriving DecidableEq, Repr

/-- One indexed file (`FileIndex`): its name and its chunks in order. -/
structure KFile where
  filename : String
  chunks : List KChunk
deriving DecidableEq, Repr

/-- A scored chunk as built in the `scored_chunks` list. -/
structure ScoredChunk where
  text : PyStr
  score : ℕ
  filename : String
deriving DecidableEq, Repr

/-- Size of the intersection `query_keywords & chunk["keywords"]` (the
query keyword list is duplicate-free, being a Python `set`). -/
def overlapScore (queryKeywords : List String) (ck : List String) : ℕ :=
  (queryKeywords.filter (fun w => ck.contains w)).length

/-- Scoring pass of `retrieve`: every chunk of every file with a positive
overlap, in file order then chunk order. -/
def scoreChunks (indices : List KFile) (queryKeywords : List String) :
    List ScoredChunk :=
  indices.flatMap (fun f =>
    (f.chunks.filter (fun c => 0 < overlapScore queryKeywords c.keywords)).map
      (fun c => { text := c.text,
                  score := overlapScore queryKeywords c.keywords,
                  filename := f.filename }))

/-- Stable insertion of a chunk after every earlier chunk of equal or
higher score.  Folding this over the scored list reproduces Python's stable
`list.sort(key=score, reverse=True)`. -/
def insertByScore (x : ScoredChunk) : List ScoredChunk → List ScoredChunk
  | [] => [x]
  | y :: ys => if y.score < x.score then x :: y :: ys else y :: insertByScore x ys

/-- Stable descending sort by score. -/
def sortByScoreDesc (l : List ScoredChunk) : List ScoredChunk :=
  l.foldl (fun acc x => insertByScore x acc) []

/-- The header-plus-text rendering `f"[From ...]\n..."` of one context
part. -/
def renderPart (filename : String) (text : PyStr) : PyStr :=
  "[From ".toList ++ filename.toList ++ "]".toList ++ '\n' :: text

/-- The budgeted concatenation loop of `retrieve` (lines 244-259): a chunk
that still fits is appended whole; a chunk that would exceed the budget is
truncated to the remaining budget plus `"..."` when more than 100 characters
remain, and otherwise the loop breaks. -/
def buildParts (maxChars : ℕ) : List ScoredChunk → ℕ → List PyStr
  | [], _ => []
  | ch :: rest, total =>
    if maxChars < total + ch.text.length then
      let remaining : ℤ := (maxChars : ℤ) - (total : ℤ)
      if 100 < remaining then
        let t := ch.text.take remaining.toNat ++ "...".toList
        renderPart ch.filename t :: buildParts maxChars rest (total + t.length)
      else []
    else
      renderPart ch.filename ch.text ::
        buildParts maxChars rest (total + ch.text.length)

/-- Model of `KnowledgeService.retrieve` from the scoring stage on, given
the workspace index and the query keyword set `set(extract_keywords(query,
top_n=10))` (with `top_k = 3`). -/
def retrieve (indices : List KFile) (queryKeywords : List String) : PyStr :=
  if indices.isEmpty then []
  else if queryKeywords.isEmpty then []
  else if ((sortByScoreDesc (scoreChunks indices queryKeywords)).take 3).isEmpty
    then []
  else joinWith ('\n' :: ['\n']) (buildParts retrieveMaxChars
    ((sortByScoreDesc (scoreChunks indices queryKeywords)).take 3) 0)

/-- A rendering of the claim's own words for the truncation rule, used to
compare the code against the specification sentence: identical to
`buildParts` except that a chunk is truncated whenever at least 100
characters of budget remain (`100 ≤ remaining` instead of
`100 < remaining`). -/
def buildPartsClaim (maxChars : ℕ) : List ScoredChunk → ℕ → List PyStr
  | [], _ => []
  | ch :: rest, total =>
    if maxChars < total + ch.text.length then
      let remaining : ℤ := (maxChars : ℤ) - (total : ℤ)
      if 100 ≤ remaining then
        let t := ch.text.take remaining.toNat ++ "...".toList
        renderPart ch.filename t :: buildPartsClaim maxChars rest (total + t.length)
      else []
    else
      renderPart ch.filename ch.text ::
        buildPartsClaim maxChars rest (total + ch.text.length)

/-- The claim-worded variant of `retrieve` built on `buildPartsClaim`. -/
def retrieveClaim (indices : List KFile) (queryKeywords : List String) : PyStr :=
  if indices.isEmpty then []
  else if queryKeywords.isEmpty then []
  else if ((sortByScoreDesc (scoreChunks indices queryKeywords)).take 3).isEmpty
    then []
  else joinWith ('\n' :: ['\n']) (buildPartsClaim retrieveMaxChars
    ((sortByScoreDesc (scoreChunks indices queryKeywords)).take 3) 0)

/-- An amended-specification rendering of the concatenation loop, written
as a single left fold over the chunks carrying the consumed budget, a
stopped flag and the parts collected so far: a chunk that fits is appended;
a chunk that would exceed the budget is truncated with a trailing `"..."`
when strictly more than 100 characters of budget remain, and otherwise is
dropped and iteration stops. -/
def amendedStep (maxChars : ℕ) (st : ℕ × Bool × List PyStr) (ch : ScoredChunk) :
    ℕ × Bool × List PyStr :=
  if st.2.1 then st
  else if st.1 + ch.text.length ≤ maxChars then
    (st.1 + ch.text.length, false, st.2.2 ++ [renderPart ch.filename ch.text])
  else if 100 < (maxChars : ℤ) - (st.1 : ℤ) then
    let t := ch.text.take ((maxChars : ℤ) - (st.1 : ℤ)).toNat ++ "...".toList
    (st.1 + t.length, false, st.2.2 ++ [renderPart ch.filename t])
  else (st.1, true, st.2.2)

/-- The amended-specification concatenation of the selected chunks. -/
def buildPartsAmended (maxChars : ℕ) (chunks : List ScoredChunk) : List PyStr :=
  (chunks.foldl (amendedStep maxChars) (0, false, [])).2.2

/-- The amended-specification variant of `retrieve`, built on
`buildPartsAmended` (truncation when strictly more than 100 characters of
budget remain, otherwise drop and stop). -/
def retrieveAmended (indices : List KFile) (queryKeywords : List String) :
    PyStr :=
  if indices.isEmpty then []
  else if queryKeywords.isEmpty then []
  else if ((sortByScoreDesc (scoreChunks indices queryKeywords)).take 3).isEmpty
    then []
  else joinWith ('\n' :: ['\n']) (buildPartsAmended retrieveMaxChars
    ((sortByScoreDesc (scoreChunks indices queryKeywords)).take 3))

/-! ### Audio level (utils/audio.py, calculate_level) -/

/-- Decoding of little-endian signed 16-bit samples from a byte list of
even length (`np.frombuffer(pcm_bytes, dtype=np.int16)`). -/
def int16Samples : List ℕ → List ℤ
  | b0 :: b1 :: rest =>
    let v : ℤ := (b0 % 256 : ℕ) + 256 * (b1 % 256 : ℕ)
    (if 32768 ≤ v then v - 65536 else v) :: int16Samples rest
  | _ => []

/-- Sum of squared samples. -/
def sumSq (l : List ℤ) : ℤ := (l.map (fun s => s * s)).sum

/-- Model of `calculate_level`.  `np.frombuffer` raises `ValueError` on a
buffer whose size is not a multiple of the element size, modelled as `none`.
The comparison `rms < 1e-6` is rephrased on the mean square
(`rms^2 < 1e-12`), which is exact for the integral samples; the decibel
value `20 * log10(rms / 32768)` of the final branch is a transcendental of
the mean square and is abstracted as the parameter `db`, applied to
`mean(samples^2)` — the clamp `max(-60.0, min(0.0, db))` does not depend on
its value. -/
def calculateLevel (db : ℚ → ℚ) (b : List ℕ) : Option ℚ :=
  if ¬ b.length % 2 = 0 then none
  else if b.length = 0 then some (-60)
  else
    let samples := int16Samples b
    let meanSq : ℚ := (sumSq samples : ℚ) / (samples.length : ℚ)
    if meanSq < 1 / 1000000000000 then some (-60)
    else some (max (-60) (min 0 (db meanSq)))

/-- Well-formedness of a bullet point produced by `_format_hint`: it starts
with one of the three bullet markers, contains no newline, and — except for
the degenerate bare `"- "` bullet produced by a numbered line with empty
remainder — ends in a non-whitespace character. -/
def goodBullet (b : PyStr) : Prop :=
  isBulletLine b = true ∧ '\n' ∉ b ∧
    (b = dashSpace ∨ ∀ c, b.getLast? = some c → pyWS c = false)

/-! ## Theorems -/

/-- Characters of a stripped string come from the original. -/
theorem mem_pyStrip {c : Char} {l : PyStr} (h : c ∈ pyStrip l) : c ∈ l := by
  unfold pyStrip at h
  rw [List.mem_reverse] at h
  have h1 : c ∈ (l.dropWhile pyWS).reverse :=
    (List.dropWhile_sublist _).subset h
  rw [List.mem_reverse] at h1
  exact (List.dropWhile_sublist _).subset h1

/-- The head surviving `dropWhile` fails the predicate. -/
theorem head?_dropWhile_not {p : Char → Bool} {l : PyStr} {c : Char}
    (h : (l.dropWhile p).head? = some c) : p c = false := by
  induction l with
  | nil => simp [List.dropWhile] at h
  | cons a t ih =>
    by_cases hpa : p a
    · rw [List.dropWhile_cons, if_pos hpa] at h
      exact ih h
    · rw [List.dropWhile_cons, if_neg hpa] at h
      have : a = c := by simpa using h
      subst this
      simpa using hpa

/-- Dropping a prefix keeps the last element. -/
theorem getLast?_dropWhile {p : Char → Bool} {l : PyStr}
    (h : l.dropWhile p ≠ []) : (l.dropWhile p).getLast? = l.getLast? := by
  induction l with
  | nil => simp at h
  | cons a t ih =>
    by_cases hpa : p a
    · rw [List.dropWhile_cons, if_pos hpa] at h ⊢
      rcases ht : t with _ | ⟨b, t'⟩
      · subst ht
        simp [List.dropWhile] at h
      · subst ht
        rw [List.getLast?_cons_cons]
        exact ih h
    · rw [List.dropWhile_cons, if_neg hpa]

/-- Appending a fresh key to the open-segment map makes it findable. -/
theorem lookupSeg_append_last (cs : List (String × TranscriptSegment))
    (k : String) (v : TranscriptSegment) (h : lookupSeg cs k = none) :
    lookupSeg (cs ++ [(k, v)]) k = some v := by
  have hfind : List.find? (fun q => decide (q.1 = k)) cs = none := by
    rcases hf : List.find? (fun q => decide (q.1 = k)) cs with _ | q
    · exact hf
    · exfalso
      unfold lookupSeg at h
      rw [hf] at h
      exact Option.noConfusion h
  unfold lookupSeg
  rw [List.find?_append, hfind]
  simp

/-- Claim C1, counterexample.  After `complete_segment` marks `"s1"`
complete (it sits in the history with its completion flag set), a further
`add_delta` bearing the same segment id is not discarded: it changes the
pending state, so the claim that history and pending state are left
unchanged is false on this input. -/
theorem c1_late_delta_counterexample :
    let a1 := (completeSegment TextAggregator.init
      { speaker := Speaker.them, text := "hello".toList,
        segmentId := "s1", timestamp := 1 }).1
    let a2 := addDelta a1
      { speaker := Speaker.me, text := "x".toList,
        segmentId := "s1", timestamp := 2 } 2
    (∃ s ∈ a1.history, s.segmentId = "s1" ∧ s.isComplete = true) ∧
      ¬ (a2.pendingText = a1.pendingText ∧
         a2.pendingSpeaker = a1.pendingSpeaker ∧
         a2.pendingSegmentId = a1.pendingSegmentId) := by
  decide

/-- Claim C1, amended.  `add_delta` never modifies the history, so the text
of an already-completed segment stored there stays frozen; but a delta whose
segment id matches a completed segment is not discarded: it (re)opens a
segment under that id and repoints the pending state at it. -/
theorem c1_add_delta_history_frozen (a : TextAggregator)
    (e : TranscriptEvent) (now : ℚ) :
    (addDelta a e now).history = a.history ∧
      (addDelta a e now).pendingSegmentId = some e.segmentId := by
  rcases h : lookupSeg a.currentSegments e.segmentId with _ | seg
  · have happ := lookupSeg_append_last a.currentSegments e.segmentId
      { speaker := e.speaker, text := [], segmentId := e.segmentId,
        timestamp := e.timestamp, isComplete := false } h
    simp [addDelta, h, happ]
  · simp [addDelta, h]

/-- Claim C2, counterexample.  Creating two sessions and then starting both
leaves two sessions in state Active: `create_session` only stops a previous
session when it is already Active, and `start_session` only checks that its
argument is in state Created, so starting a stale (superseded but never
started) session slips past both guards. -/
theorem c2_two_active_counterexample :
    ¬ activeCount (managerExec ManagerState.init
        [ManagerOp.create, ManagerOp.create,
         ManagerOp.start 0, ManagerOp.start 1]) ≤ 1 := by
  decide

/-- Stopping a session never touches the current-session slot. -/
theorem stopAt_current (st : ManagerState) (i : ℕ) :
    (stopAt st i).current = st.current := by
  unfold stopAt
  rcases hg : st.sessions.get? i with _ | s
  · rfl
  · by_cases hs : s = SessionState.stopped <;> simp [hs]

/-- Stopping a session leaves every other session's state unchanged. -/
theorem stopAt_get_ne (st : ManagerState) (i j : ℕ) (h : ¬ j = i) :
    (stopAt st i).sessions.get? j = st.sessions.get? j := by
  unfold stopAt
  rcases hg : st.sessions.get? i with _ | s
  · rfl
  · by_cases hs : s = SessionState.stopped
    · simp [hs]
    · simp only [if_neg hs]
      exact List.get?_set_ne _ _ (fun a => h a.symm)

/-- After stopping session `i`, session `i` is not Active. -/
theorem stopAt_self_not_active (st : ManagerState) (i : ℕ) :
    ¬ (stopAt st i).sessions.get? i = some SessionState.active := by
  rcases hg : st.sessions.get? i with _ | s
  · simp only [stopAt, hg]
    simp
  · by_cases hs : s = SessionState.stopped
    · simp only [stopAt, hg, if_pos hs]
      simp [hs]
    · simp only [stopAt, hg, if_neg hs]
      have hlt : i < st.sessions.length := (List.get?_eq_some.1 hg).1
      show ¬ (st.sessions.set i SessionState.stopped).get? i = _
      rw [List.get?_set_eq_of_lt _ hlt]
      intro hcon
      exact SessionState.noConfusion (Option.some.inj hcon)

/-- An Active entry of `l ++ [Created]` is an Active entry of `l`. -/
theorem append_created_active (l : List SessionState) (j : ℕ)
    (h : (l ++ [SessionState.created]).get? j = some SessionState.active) :
    l.get? j = some SessionState.active := by
  rcases Nat.lt_or_ge j l.length with hlt | hge
  · rwa [List.get?_append hlt] at h
  · rw [List.get?_append_right hge] at h
    rcases hd : j - l.length with _ | m
    · rw [hd] at h
      exact absurd (Option.some.inj h)
        (fun hcon => SessionState.noConfusion hcon)
    · rw [hd] at h
      simp at h

/-- Invariant behind the amended C2: every Active session is the manager's
current session.  It is preserved by any operation of a run that only ever
starts the current session. -/
theorem managerStep_active_is_current (st : ManagerState) (op : ManagerOp)
    (hok : match op with
           | ManagerOp.start i => st.current = some i
           | _ => True)
    (hinv : ∀ j, st.sessions.get? j = some SessionState.active →
      st.current = some j) :
    ∀ j, (managerStep st op).sessions.get? j = some SessionState.active →
      (managerStep st op).current = some j := by
  cases op with
  | create =>
    intro j hj
    exfalso
    simp only [managerStep] at hj
    rcases hc : st.current with _ | i
    · rw [hc] at hj
      have hact := append_created_active _ _ hj
      have := hinv j hact
      rw [hc] at this
      exact Option.noConfusion this
    · rw [hc] at hj
      have hj' : ((if st.sessions.get? i = some SessionState.active
          then stopAt st i else st).sessions ++
          [SessionState.created]).get? j = some SessionState.active := hj
      by_cases hact : st.sessions.get? i = some SessionState.active
      · rw [if_pos hact] at hj'
        have hact' := append_created_active _ _ hj'
        by_cases hji : j = i
        · subst hji
          exact stopAt_self_not_active st j hact'
        · rw [stopAt_get_ne st i j hji] at hact'
          have := hinv j hact'
          rw [hc] at this
          exact hji (Option.some.inj this).symm
      · rw [if_neg hact] at hj'
        have hact' := append_created_active _ _ hj'
        have := hinv j hact'
        rw [hc] at this
        have hji : j = i := (Option.some.inj this).symm
        subst hji
        exact hact hact'
  | start i =>
    simp only [managerStep]
    by_cases hcr : st.sessions.get? i = some SessionState.created
    · simp only [if_pos hcr]
      intro j hj
      by_cases hji : j = i
      · subst hji
        simpa using hok
      · show st.current = some j
        refine hinv j ?_
        rwa [List.get?_set_ne _ _ (fun a => hji a.symm)] at hj
    · simp only [if_neg hcr]
      exact hinv
  | stop i =>
    have hstep : managerStep st (ManagerOp.stop i) = stopAt st i := rfl
    rw [hstep]
    intro j hj
    rw [stopAt_current]
    by_cases hji : j = i
    · subst hji
      exact absurd hj (stopAt_self_not_active st j)
    · rw [stopAt_get_ne st i j hji] at hj
      exact hinv j hj
  | destroy i =>
    simp only [managerStep]
    by_cases hci : st.current = some i
    · simp only [if_pos hci]
      intro j hj
      exfalso
      have hj' : (stopAt st i).sessions.get? j = some SessionState.active := hj
      by_cases hji : j = i
      · subst hji
        exact stopAt_self_not_active st j hj'
      · rw [stopAt_get_ne st i j hji] at hj'
        have := hinv j hj'
        rw [hci] at this
        exact hji (Option.some.inj this).symm
    · simp only [if_neg hci]
      exact hinv

/-- A list in which Active occurs at a unique position (here: only possibly
at the current index) contains at most one Active entry. -/
theorem countP_active_le_one (l : List SessionState)
    (h : ∀ j k, l.get? j = some SessionState.active →
      l.get? k = some SessionState.active → j = k) :
    l.countP (fun s => s = SessionState.active) ≤ 1 := by
  induction l with
  | nil => simp
  | cons x t ih =>
    rw [List.countP_cons]
    by_cases hx : x = SessionState.active
    · have ht0 : t.countP (fun s => decide (s = SessionState.active)) = 0 := by
        rw [List.countP_eq_zero]
        intro a ha hpa
        have hact : a = SessionState.active := by simpa using hpa
        obtain ⟨k, hk⟩ := List.get?_of_mem ha
        have h0 : (x :: t).get? 0 = some SessionState.active := by simp [hx]
        have hk1 : (x :: t).get? (k + 1) = some SessionState.active := by
          simpa [hact] using hk
        exact Nat.noConfusion (h 0 (k + 1) h0 hk1)
      rw [ht0]
      simp [hx]
    · have hle := ih (fun j k hj hk => by
        have := h (j + 1) (k + 1) (by simpa using hj) (by simpa using hk)
        omega)
      have hx0 : (decide (x = SessionState.active)) = false := by simp [hx]
      simpa [hx0] using hle

/-- Execution of `op :: rest` steps once and continues. -/
theorem managerExec_cons (st : ManagerState) (op : ManagerOp)
    (rest : List ManagerOp) :
    managerExec st (op :: rest) = managerExec (managerStep st op) rest := rfl

/-- The invariant holds along every disciplined run. -/
theorem okRun_active_is_current (ops : List ManagerOp) :
    ∀ st : ManagerState,
      (∀ j, st.sessions.get? j = some SessionState.active →
        st.current = some j) →
      okRun st ops →
      ∀ j, (managerExec st ops).sessions.get? j = some SessionState.active →
        (managerExec st ops).current = some j := by
  induction ops with
  | nil =>
    intro st hinv _
    simpa [managerExec] using hinv
  | cons op rest ih =>
    intro st hinv hok
    rw [managerExec_cons]
    exact ih _ (managerStep_active_is_current st op hok.1 hinv) hok.2

/-- Claim C2, amended.  Over every run of manager operations in which
`start_session` is only invoked on the manager's current session (the
discipline the code's own call sites follow for the session they created),
at most one session is in state Active.  Without that restriction the
original claim fails, see the counterexample. -/
theorem c2_at_most_one_active (ops : List ManagerOp)
    (hok : okRun ManagerState.init ops) :
    activeCount (managerExec ManagerState.init ops) ≤ 1 := by
  have hinv0 : ∀ j, (ManagerState.init).sessions.get? j =
      some SessionState.active → (ManagerState.init).current = some j := by
    intro j hj
    simp [ManagerState.init] at hj
  have hinv := okRun_active_is_current ops ManagerState.init hinv0 hok
  exact countP_active_le_one _ (fun j k hj hk => by
    have h1 := hinv j hj
    have h2 := hinv k hk
    rw [h1] at h2
    exact Option.some.inj h2)

/-- Witness for `c2_at_most_one_active`: a disciplined create/start run. -/
theorem c2_at_most_one_active_witness :
    okRun ManagerState.init [ManagerOp.create, ManagerOp.start 0] ∧
      activeCount (managerExec ManagerState.init
        [ManagerOp.create, ManagerOp.start 0]) ≤ 1 :=
  ⟨by decide, c2_at_most_one_active [ManagerOp.create, ManagerOp.start 0]
    (by decide)⟩

/-- Claim C4, counterexample.  On an HTTP 500 response the completion
streamer publishes nothing at all and leaves both counters untouched: in
particular, contrary to the claim, `llm_errors` is not incremented and no
`LlmError` event is published.  (The abstracted dB parameter plays no role
here; the outcome is independent of the stream contents.) -/
theorem c4_non_2xx_counterexample :
    (generateHint (TryOutcome.response 500 [StreamLine.token ['x']])).llmErrorsDelta = 0 ∧
      LlmEvent.llmError ∉
        (generateHint (TryOutcome.response 500 [StreamLine.token ['x']])).events := by
  decide

/-- Claim C4, amended.  For every upstream completion response with an HTTP
status other than 200 (hence for every non-2xx status), `_generate_hint`
abandons the request: no `HintCompleted` (indeed no event at all) is
published, and — contrary to the original claim — `llm_errors` is not
incremented and no `LlmError` is published; those effects belong to the
exception path only. -/
theorem c4_non_200_abandons (status : ℕ) (stream : List StreamLine)
    (h : ¬ status = 200) :
    generateHint (TryOutcome.response status stream) =
      { events := [], hintsGeneratedDelta := 0, llmErrorsDelta := 0 } := by
  simp [generateHint, h]

/-- Witness for `c4_non_200_abandons` at status 500. -/
theorem c4_non_200_abandons_witness :
    ¬ (500 = 200) ∧
      generateHint (TryOutcome.response 500 [StreamLine.token ['x']]) =
        { events := [], hintsGeneratedDelta := 0, llmErrorsDelta := 0 } :=
  ⟨by decide, c4_non_200_abandons 500 [StreamLine.token ['x']] (by decide)⟩

/-- Claim C5.  In MeetingAssistant mode with hints enabled, starting from a
fresh orchestrator (`_last_hint_time = 0`, so any realistic wall-clock first
chunk passes the gate), two Them-speaker chunks processed within 2000 ms of
each other produce exactly one `TEXT_CHUNK_READY` publication — the first
one — and the dropped second dispatch leaves no trace in the state (nothing
is queued; the rate-limit timestamp still marks the first dispatch). -/
theorem c5_meeting_rate_limit (t1 t2 : ℚ) (c1 c2 : OrchChunk)
    (h1 : c1.speaker = Speaker.them) (h2 : c2.speaker = Speaker.them)
    (ht1 : 2 ≤ t1) (ht12 : t1 ≤ t2) (hwin : (t2 - t1) * 1000 < 2000) :
    processChunkSeq SessionMode.meetingAssistant true 0 [(t1, c1), (t2, c2)] =
      (t1, [c1]) := by
  have hgate : ¬ t1 * 1000 < hintRateLimitMs := by
    simp only [hintRateLimitMs]
    nlinarith
  have hdrop : (t2 - t1) * 1000 < hintRateLimitMs := by
    simpa [hintRateLimitMs] using hwin
  simp [processChunkSeq, processChunk, processMeeting, h1, h2, hgate, hdrop]

/-- Witness for `c5_meeting_rate_limit` at times 5 s and 6 s. -/
theorem c5_meeting_rate_limit_witness :
    (2 : ℚ) ≤ 5 ∧ (5 : ℚ) ≤ 6 ∧ ((6 : ℚ) - 5) * 1000 < 2000 ∧
      processChunkSeq SessionMode.meetingAssistant true 0
        [(5, { speaker := Speaker.them, text := [], isQuestionFlag := false }),
         (6, { speaker := Speaker.them, text := ['a'], isQuestionFlag := false })] =
        (5, [{ speaker := Speaker.them, text := [], isQuestionFlag := false }]) :=
  ⟨by norm_num, by norm_num, by norm_num,
    c5_meeting_rate_limit 5 6
      { speaker := Speaker.them, text := [], isQuestionFlag := false }
      { speaker := Speaker.them, text := ['a'], isQuestionFlag := false }
      rfl rfl (by norm_num) (by norm_num) (by norm_num)⟩

/-- One mic-channel audio frame with a non-empty payload, delivered to an
Active session, increments the frame counter and enqueues with the
drop-oldest overflow policy. -/
theorem handleAudio_mic_step (s : AudioSession)
    (hstate : s.state = SessionState.active) (e : ℕ) (p : List ℕ)
    (hp : p ≠ []) :
    handleAudio { session := some s, errorsSent := e } (0 :: p) =
      { session := some
          { s with
            micQueue := if s.micQueue.length < audioQueueMaxSize
              then s.micQueue ++ [p] else s.micQueue.tail ++ [p],
            totalFramesMic := s.totalFramesMic + 1,
            droppedFramesMic := s.droppedFramesMic +
              (if s.micQueue.length < audioQueueMaxSize then 0 else 1) },
        errorsSent := e } := by
  have hlen2 : ¬ p.length + 1 < 2 := by
    cases p
    · exact absurd rfl hp
    · simp
  by_cases hq : s.micQueue.length < audioQueueMaxSize
  · simp [handleAudio, hstate, hlen2, enqueueDropOldest, hq]
  · simp [handleAudio, hstate, hlen2, enqueueDropOldest, hq]

/-- Folding a batch of non-empty mic frames over an Active session with a
queue within capacity: the queue ends up holding the tail of the combined
old-queue-plus-batch sequence that fits the capacity, and exactly the
overflow count is recorded as dropped. -/
theorem handleAudioSeq_mic (pcms : List (List ℕ)) :
    ∀ (s : AudioSession) (e : ℕ), s.state = SessionState.active →
      (∀ p ∈ pcms, p ≠ []) → s.micQueue.length ≤ audioQueueMaxSize →
      handleAudioSeq { session := some s, errorsSent := e }
          (pcms.map (fun p => 0 :: p)) =
        { session := some
            { s with
              micQueue := (s.micQueue ++ pcms).drop
                (s.micQueue.length + pcms.length - audioQueueMaxSize),
              totalFramesMic := s.totalFramesMic + pcms.length,
              droppedFramesMic := s.droppedFramesMic +
                (s.micQueue.length + pcms.length - audioQueueMaxSize) },
          errorsSent := e } := by
  induction pcms with
  | nil =>
    intro s e hstate _ hle
    have h0 : s.micQueue.length - audioQueueMaxSize = 0 := by omega
    simp [handleAudioSeq, h0]
  | cons p rest ih =>
    intro s e hstate hne hle
    have hp : p ≠ [] := hne p (by simp)
    simp only [List.map_cons, handleAudioSeq, List.foldl_cons]
    rw [show (List.foldl handleAudio
        (handleAudio { session := some s, errorsSent := e } (0 :: p))
        (rest.map (fun q => 0 :: q))) =
        handleAudioSeq (handleAudio { session := some s, errorsSent := e }
          (0 :: p)) (rest.map (fun q => 0 :: q)) from rfl]
    rw [handleAudio_mic_step s hstate e p hp]
    have hne' : ∀ x ∈ rest, x ≠ [] := fun x hx => hne x (List.mem_cons_of_mem _ hx)
    by_cases hq : s.micQueue.length < audioQueueMaxSize
    · rw [if_pos hq, if_pos hq]
      have hstep := ih
        { s with micQueue := s.micQueue ++ [p],
                 totalFramesMic := s.totalFramesMic + 1,
                 droppedFramesMic := s.droppedFramesMic + 0 } e hstate hne'
        (by simp only [List.length_append, List.length_singleton,
              List.length_cons, List.length_nil]; omega)
      rw [hstep]
      dsimp only
      have h1 : (s.micQueue ++ [p]) ++ rest = s.micQueue ++ p :: rest := by
        rw [List.append_assoc]
        rfl
      have hfit : (s.micQueue ++ [p]).length + rest.length - audioQueueMaxSize =
          s.micQueue.length + (p :: rest).length - audioQueueMaxSize := by
        simp only [List.length_append, List.length_singleton, List.length_cons,
          List.length_nil]
        omega
      rw [h1, hfit]
      simp only [Nat.add_zero]
      have htot : s.totalFramesMic + 1 + rest.length =
          s.totalFramesMic + (p :: rest).length := by
        simp only [List.length_cons]
        omega
      rw [htot]
    · rw [if_neg hq, if_neg hq]
      have hq200 : s.micQueue.length = audioQueueMaxSize := by omega
      have hqne : s.micQueue ≠ [] := by
        intro hcon
        rw [hcon] at hq200
        simp [audioQueueMaxSize] at hq200
      have hL : 1 ≤ s.micQueue.length := List.length_pos.2 hqne
      have hstep := ih
        { s with micQueue := s.micQueue.tail ++ [p],
                 totalFramesMic := s.totalFramesMic + 1,
                 droppedFramesMic := s.droppedFramesMic + 1 } e hstate hne'
        (by simp only [List.length_append, List.length_singleton,
              List.length_cons, List.length_nil, List.length_tail]; omega)
      rw [hstep]
      dsimp only
      have h1 : (s.micQueue.tail ++ [p]) ++ rest = s.micQueue.tail ++ p :: rest := by
        rw [List.append_assoc]
        rfl
      have hc : (s.micQueue.tail ++ [p]).length + rest.length - audioQueueMaxSize =
          rest.length := by
        simp only [List.length_append, List.length_singleton, List.length_cons,
          List.length_nil, List.length_tail]
        omega
      rw [h1, hc]
      have htot : s.totalFramesMic + 1 + rest.length =
          s.totalFramesMic + (p :: rest).length := by
        simp only [List.length_cons]
        omega
      rw [htot]
      have hdropeq : (s.micQueue ++ p :: rest).drop
          (s.micQueue.length + (p :: rest).length - audioQueueMaxSize) =
          (s.micQueue.tail ++ p :: rest).drop rest.length := by
        rcases hqcons : s.micQueue with _ | ⟨x, xs⟩
        · exact absurd hqcons hqne
        · have hxs : xs.length + 1 = audioQueueMaxSize := by
            rw [hqcons] at hq200
            simpa using hq200
          have hcount : (x :: xs).length + (p :: rest).length - audioQueueMaxSize =
              rest.length + 1 := by
            simp only [List.length_cons]
            omega
          rw [hqcons] at *
          rw [hcount]
          simp only [List.cons_append, List.drop_succ_cons, List.tail_cons]
      rw [hdropeq]
      have hdrop2 : s.droppedFramesMic + 1 + rest.length =
          s.droppedFramesMic +
            (s.micQueue.length + (p :: rest).length - audioQueueMaxSize) := by
        simp only [List.length_cons]
        omega
      rw [hdrop2]

/-- Claim C6.  Starting from an Active session with empty queues and zero
counters, delivering 250 non-empty frames on the mic channel with no
consumer leaves exactly the last 200 delivered payloads in the queue in
FIFO order, and records 50 dropped frames. -/
theorem c6_ingress_drop_overflow (pcms : List (List ℕ))
    (hlen : pcms.length = 250) (hne : ∀ p ∈ pcms, p ≠ []) :
    handleAudioSeq
        { session := some
            { state := SessionState.active, micQueue := [], systemQueue := [],
              totalFramesMic := 0, totalFramesSystem := 0,
              droppedFramesMic := 0, droppedFramesSystem := 0 },
          errorsSent := 0 }
        (pcms.map (fun p => 0 :: p)) =
      { session := some
          { state := SessionState.active, micQueue := pcms.drop 50,
            systemQueue := [], totalFramesMic := 250, totalFramesSystem := 0,
            droppedFramesMic := 50, droppedFramesSystem := 0 },
        errorsSent := 0 } ∧
      (pcms.drop 50).length = 200 := by
  constructor
  · rw [handleAudioSeq_mic pcms _ 0 rfl hne (by simp)]
    simp [hlen, audioQueueMaxSize]
  · simp [hlen]

/-- Witness for `c6_ingress_drop_overflow` on 250 concrete one-byte
frames. -/
theorem c6_ingress_drop_overflow_witness :
    ((List.range 250).map (fun i => [i])).length = 250 ∧
      (handleAudioSeq
          { session := some
              { state := SessionState.active, micQueue := [], systemQueue := [],
                totalFramesMic := 0, totalFramesSystem := 0,
                droppedFramesMic := 0, droppedFramesSystem := 0 },
            errorsSent := 0 }
          (((List.range 250).map (fun i => [i])).map (fun p => 0 :: p)) =
        { session := some
            { state := SessionState.active,
              micQueue := ((List.range 250).map (fun i => [i])).drop 50,
              systemQueue := [], totalFramesMic := 250, totalFramesSystem := 0,
              droppedFramesMic := 50, droppedFramesSystem := 0 },
          errorsSent := 0 } ∧
        (((List.range 250).map (fun i => [i])).drop 50).length = 200) :=
  ⟨by simp,
    c6_ingress_drop_overflow ((List.range 250).map (fun i => [i]))
      (by simp) (by intro p hp; simp at hp; obtain ⟨a, _, hpa⟩ := hp;
                    exact hpa ▸ (by simp))⟩

/-- Claim C10.  When the handler has no session, or its session is not in
state Active, `_handle_audio` returns at the first guard: the whole handler
state — both queues, every statistics counter, and the count of errors sent
to the client — is unchanged. -/
theorem c10_inactive_ingress_noop (h : HandlerState) (data : List ℕ)
    (hs : h.session = none ∨
      ∃ s, h.session = some s ∧ ¬ s.state = SessionState.active) :
    handleAudio h data = h := by
  rcases hs with hnone | ⟨s, hsome, hstate⟩
  · simp [handleAudio, hnone]
  · simp [handleAudio, hsome, hstate]

/-- Witness for `c10_inactive_ingress_noop`: a Created (not Active) session
receiving a well-formed mic frame. -/
theorem c10_inactive_ingress_noop_witness :
    ((HandlerState.mk
        (some { state := SessionState.created, micQueue := [], systemQueue := [],
                totalFramesMic := 0, totalFramesSystem := 0,
                droppedFramesMic := 0, droppedFramesSystem := 0 }) 0).session = none ∨
      ∃ s, (HandlerState.mk
        (some { state := SessionState.created, micQueue := [], systemQueue := [],
                totalFramesMic := 0, totalFramesSystem := 0,
                droppedFramesMic := 0, droppedFramesSystem := 0 }) 0).session = some s ∧
          ¬ s.state = SessionState.active) ∧
      handleAudio (HandlerState.mk
        (some { state := SessionState.created, micQueue := [], systemQueue := [],
                totalFramesMic := 0, totalFramesSystem := 0,
                droppedFramesMic := 0, droppedFramesSystem := 0 }) 0) [0, 7] =
        HandlerState.mk
          (some { state := SessionState.created, micQueue := [], systemQueue := [],
                  totalFramesMic := 0, totalFramesSystem := 0,
                  droppedFramesMic := 0, droppedFramesSystem := 0 }) 0 :=
  ⟨Or.inr ⟨_, rfl, by decide⟩,
    c10_inactive_ingress_noop _ [0, 7] (Or.inr ⟨_, rfl, by decide⟩)⟩

/-- Claim C8, counterexample.  `calculate_level` is not total over
arbitrary byte strings: on the all-zero one-byte input `b"\x00"` the call
`np.frombuffer(pcm_bytes, dtype=np.int16)` raises `ValueError` (buffer size
not a multiple of the element size), so neither the claimed `[-60, 0]`
bound nor the claimed `-60.0` result for all-zero input holds there.  The
outcome is independent of the abstracted dB computation, instantiated here
with the zero function. -/
theorem c8_odd_length_counterexample :
    calculateLevel (fun _ => 0) [0] = none := by
  decide

/-- Claim C8, amended.  For every byte string of even length (the domain on
which `np.frombuffer` succeeds) and every dB computation, `calculate_level`
returns a value in `[-60, 0]`; the empty string and every even-length
all-zero string yield exactly `-60`.  Odd-length inputs raise instead. -/
theorem c8_level_bounds (db : ℚ → ℚ) (b : List ℕ)
    (heven : b.length % 2 = 0) :
    (∃ x, calculateLevel db b = some x ∧ -60 ≤ x ∧ x ≤ 0) ∧
      ((∀ y ∈ b, y = 0) → calculateLevel db b = some (-60)) := by
  constructor
  · unfold calculateLevel
    rw [if_neg (by simp [heven])]
    by_cases hnil : b.length = 0
    · rw [if_pos hnil]
      exact ⟨-60, rfl, le_refl _, by norm_num⟩
    · rw [if_neg hnil]
      by_cases hsmall : ((sumSq (int16Samples b) : ℚ) /
          ((int16Samples b).length : ℚ)) < 1 / 1000000000000
      · rw [if_pos hsmall]
        exact ⟨-60, rfl, le_refl _, by norm_num⟩
      · rw [if_neg hsmall]
        refine ⟨_, rfl, le_max_left _ _, ?_⟩
        exact max_le (by norm_num) (min_le_left _ _)
  · intro hzero
    unfold calculateLevel
    rw [if_neg (by simp [heven])]
    by_cases hnil : b.length = 0
    · rw [if_pos hnil]
    · rw [if_neg hnil]
      have hsamples : ∀ z ∈ int16Samples b, z = 0 := by
        clear heven hnil
        induction b using int16Samples.induct with
        | case1 b0 b1 rest ih =>
          intro z hz
          have h0 : b0 = 0 := hzero b0 (by simp)
          have h1 : b1 = 0 := hzero b1 (by simp)
          rw [int16Samples] at hz
          simp only [h0, h1] at hz
          norm_num at hz
          rcases hz with hz | hz
          · exact hz
          · exact ih (fun y hy => hzero y (by simp [hy])) z hz
        | case2 b hb =>
          intro z hz
          rw [int16Samples.eq_def] at hz
          rcases b with _ | ⟨b0, bt⟩
          · simp at hz
          · rcases bt with _ | ⟨b1, rest⟩
            · simp at hz
            · exact (hb b0 b1 rest rfl).elim
      have hssq : sumSq (int16Samples b) = 0 := by
        unfold sumSq
        rw [List.sum_eq_zero]
        intro z hz
        simp only [List.mem_map] at hz
        obtain ⟨w, hw, hwz⟩ := hz
        rw [hsamples w hw] at hwz
        simpa using hwz.symm
      rw [if_pos (by rw [hssq]; norm_num)]

/-- Witness for `c8_level_bounds` on the two-byte all-zero input. -/
theorem c8_level_bounds_witness :
    ([0, 0] : List ℕ).length % 2 = 0 ∧
      calculateLevel (fun _ => 0) [0, 0] = some (-60) :=
  ⟨by decide, (c8_level_bounds (fun _ => 0) [0, 0] (by decide)).2
    (by decide)⟩

set_option maxRecDepth 10000 in
/-- Claim C9, counterexample.  One hundred completed empty-text Me segments
render as one hundred `"[ME] "` lines: the budget counts only the line
texts (five hundred characters), not the ninety-nine joining newlines, so
the returned string has 599 characters, contradicting the claimed total
bound of 500. -/
theorem c9_length_counterexample :
    ¬ (getGlobalContext
        { TextAggregator.init with
          history := List.replicate 100
            { speaker := Speaker.me, text := [], segmentId := "s",
              timestamp := 0, isComplete := true } }).length ≤ 500 := by
  decide

/-- The context-gathering loop keeps a rendered prefix of the (newest-first)
segment list whose line lengths sum within the remaining budget. -/
theorem collectLines_spec (maxChars : ℕ) (l : List TranscriptSegment) :
    ∀ tot : ℕ,
      ∃ j, j ≤ l.length ∧
        collectLines maxChars l tot = (l.take j).map renderLine ∧
        (((l.take j).map renderLine).map List.length).sum ≤ maxChars - tot := by
  induction l with
  | nil =>
    intro tot
    exact ⟨0, by simp, by simp [collectLines], by simp⟩
  | cons s rest ih =>
    intro tot
    by_cases hbig : tot + (renderLine s).length > maxChars
    · refine ⟨0, by simp, ?_, by simp⟩
      simp [collectLines, hbig]
    · obtain ⟨j, hj, heq, hsum⟩ := ih (tot + (renderLine s).length)
      refine ⟨j + 1, by simp only [List.length_cons]; omega, ?_, ?_⟩
      · simp only [collectLines, if_neg hbig, heq, List.take_succ_cons,
          List.map_cons]
      · simp only [List.take_succ_cons, List.map_cons, List.sum_cons]
        omega

/-- Reversing a prefix of the reversed list is a (chronological) suffix. -/
theorem reverse_take_reverse {α : Type} (l : List α) (j : ℕ) :
    (l.reverse.take j).reverse = l.drop (l.length - j) := by
  rw [List.reverse_take]
  simp

/-- Claim C9, amended.  `get_global_context` renders a chronological suffix
of the history (the newest-first prefix that fits, reversed back), joined by
newlines; the 500-character budget bounds the sum of the rendered line
lengths, but not the newline separators, so the returned string itself can
be up to 99 characters longer (see the counterexample). -/
theorem c9_global_context_suffix (a : TextAggregator) :
    ∃ k, k ≤ a.history.length ∧
      getGlobalContext a = joinSep '\n' ((a.history.drop k).map renderLine) ∧
      (((a.history.drop k).map renderLine).map List.length).sum ≤ 500 := by
  obtain ⟨j, hj, heq, hsum⟩ :=
    collectLines_spec globalContextMaxChars a.history.reverse 0
  have hlist : ((a.history.reverse.take j).map renderLine).reverse =
      (a.history.drop (a.history.length - j)).map renderLine := by
    rw [← List.map_reverse, reverse_take_reverse]
  refine ⟨a.history.length - j, by omega, ?_, ?_⟩
  · unfold getGlobalContext
    rw [heq, hlist]
  · rw [← hlist]
    have : (((a.history.reverse.take j).map renderLine).reverse.map
        List.length).sum = (((a.history.reverse.take j).map renderLine).map
        List.length).sum := by
      rw [List.map_reverse, List.sum_reverse]
    rw [this]
    simpa [globalContextMaxChars] using hsum

/-- A stopped amended-specification fold never changes state again. -/
theorem amendedStep_stopped (maxChars : ℕ) (chunks : List ScoredChunk) :
    ∀ (tot : ℕ) (acc : List PyStr),
      chunks.foldl (amendedStep maxChars) (tot, true, acc) = (tot, true, acc) := by
  induction chunks with
  | nil => intro tot acc; rfl
  | cons ch rest ih =>
    intro tot acc
    simp only [List.foldl_cons, amendedStep]
    exact ih tot acc

/-- The running amended-specification fold agrees with the code's
recursive budget loop. -/
theorem amendedStep_fold (maxChars : ℕ) (chunks : List ScoredChunk) :
    ∀ (tot : ℕ) (acc : List PyStr),
      (chunks.foldl (amendedStep maxChars) (tot, false, acc)).2.2 =
        acc ++ buildParts maxChars chunks tot := by
  induction chunks with
  | nil => intro tot acc; simp [buildParts]
  | cons ch rest ih =>
    intro tot acc
    simp only [List.foldl_cons]
    by_cases hfits : tot + ch.text.length ≤ maxChars
    · have hstep : amendedStep maxChars (tot, false, acc) ch =
          (tot + ch.text.length, false,
            acc ++ [renderPart ch.filename ch.text]) := by
        simp [amendedStep, hfits]
      rw [hstep, ih]
      have hnot : ¬ maxChars < tot + ch.text.length := by omega
      simp [buildParts, hnot]
    · have hover : maxChars < tot + ch.text.length := by omega
      by_cases htr : 100 < (maxChars : ℤ) - (tot : ℤ)
      · have hstep : amendedStep maxChars (tot, false, acc) ch =
            (tot + (ch.text.take ((maxChars : ℤ) - (tot : ℤ)).toNat ++
              "...".toList).length, false,
              acc ++ [renderPart ch.filename
                (ch.text.take ((maxChars : ℤ) - (tot : ℤ)).toNat ++
                  "...".toList)]) := by
          simp only [amendedStep]
          rw [if_neg (by simp), if_neg (by omega), if_pos htr]
        rw [hstep, ih]
        simp only [buildParts]
        rw [if_pos hover, if_pos htr]
        simp
      · have hstep : amendedStep maxChars (tot, false, acc) ch =
            (tot, true, acc) := by
          simp only [amendedStep]
          rw [if_neg (by simp), if_neg (by omega), if_neg htr]
        rw [hstep, amendedStep_stopped]
        simp only [buildParts]
        rw [if_pos hover, if_neg htr]
        simp

/-- Claim C7, amended.  `retrieve` concatenates the selected top-3 chunks
under the 8000-character budget exactly as the amended wording says: a
chunk that would exceed the remaining budget is truncated to the remaining
budget with a trailing `"..."` when strictly more than 100 characters of
budget remain, and otherwise it is dropped and iteration stops.  (The
original claim's `at least 100` boundary is refuted by the
counterexample.) -/
theorem c7_retrieve_budget (indices : List KFile)
    (queryKeywords : List String) :
    retrieve indices queryKeywords = retrieveAmended indices queryKeywords := by
  unfold retrieve retrieveAmended
  have hfold := amendedStep_fold retrieveMaxChars
    ((sortByScoreDesc (scoreChunks indices queryKeywords)).take 3) 0 []
  rw [buildPartsAmended, hfold]
  simp

/-- Unfolding lemma: a chunk that fits the remaining budget is appended
whole. -/
theorem buildParts_cons_fits (maxChars : ℕ) (ch : ScoredChunk)
    (rest : List ScoredChunk) (total : ℕ)
    (h : ¬ maxChars < total + ch.text.length) :
    buildParts maxChars (ch :: rest) total =
      renderPart ch.filename ch.text ::
        buildParts maxChars rest (total + ch.text.length) := by
  simp only [buildParts]
  rw [if_neg h]

/-- Unfolding lemma: an overflowing chunk with at most 100 characters of
budget left ends the loop. -/
theorem buildParts_cons_stop (maxChars : ℕ) (ch : ScoredChunk)
    (rest : List ScoredChunk) (total : ℕ)
    (h1 : maxChars < total + ch.text.length)
    (h2 : ¬ (100 < (maxChars : ℤ) - (total : ℤ))) :
    buildParts maxChars (ch :: rest) total = [] := by
  simp only [buildParts]
  rw [if_pos h1, if_neg h2]

/-- Unfolding lemma for the claim-worded loop: a chunk that fits is
appended whole. -/
theorem buildPartsClaim_cons_fits (maxChars : ℕ) (ch : ScoredChunk)
    (rest : List ScoredChunk) (total : ℕ)
    (h : ¬ maxChars < total + ch.text.length) :
    buildPartsClaim maxChars (ch :: rest) total =
      renderPart ch.filename ch.text ::
        buildPartsClaim maxChars rest (total + ch.text.length) := by
  simp only [buildPartsClaim]
  rw [if_neg h]

/-- Unfolding lemma for the claim-worded loop: an overflowing chunk with at
least 100 characters of budget left is truncated and kept. -/
theorem buildPartsClaim_cons_trunc (maxChars : ℕ) (ch : ScoredChunk)
    (rest : List ScoredChunk) (total : ℕ)
    (h1 : maxChars < total + ch.text.length)
    (h2 : (100 : ℤ) ≤ (maxChars : ℤ) - (total : ℤ)) :
    buildPartsClaim maxChars (ch :: rest) total =
      renderPart ch.filename
          (ch.text.take ((maxChars : ℤ) - (total : ℤ)).toNat ++ "...".toList) ::
        buildPartsClaim maxChars rest
          (total + (ch.text.take ((maxChars : ℤ) - (total : ℤ)).toNat ++
            "...".toList).length) := by
  simp only [buildPartsClaim]
  rw [if_pos h1, if_pos h2]

/-- A list is never equal to itself extended by at least one element. -/
theorem self_ne_append_cons {α : Type} (l ys : List α) (x : α) :
    l ≠ l ++ x :: ys := by
  intro h
  have hlen := congrArg List.length h
  rw [List.length_append, List.length_cons] at hlen
  omega

/-- Claim C7, counterexample.  With a 7900-character chunk followed by a
200-character chunk (both matching the query keyword), exactly 100
characters of budget remain when the second chunk is reached: the claim's
`at least 100` reading truncates and keeps it, but the code's `remaining >
100` test drops it and stops, so the two disagree on this input. -/
theorem c7_boundary_counterexample :
    retrieve
        [{ filename := "a.md",
           chunks := [{ text := List.replicate 7900 'a', keywords := ["foo"] },
                      { text := List.replicate 200 'b', keywords := ["foo"] }] }]
        ["foo"] ≠
      retrieveClaim
        [{ filename := "a.md",
           chunks := [{ text := List.replicate 7900 'a', keywords := ["foo"] },
                      { text := List.replicate 200 'b', keywords := ["foo"] }] }]
        ["foo"] := by
  have hlen1 : (List.replicate 7900 'a').length = 7900 :=
    List.length_replicate _ _
  have hlen2 : (List.replicate 200 'b').length = 200 :=
    List.length_replicate _ _
  have hmax : retrieveMaxChars = 8000 := rfl
  have hsel : (sortByScoreDesc (scoreChunks
      [{ filename := "a.md",
         chunks := [{ text := List.replicate 7900 'a', keywords := ["foo"] },
                    { text := List.replicate 200 'b', keywords := ["foo"] }] }]
      ["foo"])).take 3 =
      [{ text := List.replicate 7900 'a', score := 1, filename := "a.md" },
       { text := List.replicate 200 'b', score := 1, filename := "a.md" }] := rfl
  have hp1 : ({ text := List.replicate 7900 'a', score := 1,
                filename := "a.md" } : ScoredChunk).text =
      List.replicate 7900 'a' := rfl
  have hp2 : ({ text := List.replicate 200 'b', score := 1,
                filename := "a.md" } : ScoredChunk).text =
      List.replicate 200 'b' := rfl
  have hc1 : ¬ retrieveMaxChars <
      0 + ({ text := List.replicate 7900 'a', score := 1,
             filename := "a.md" } : ScoredChunk).text.length := by
    rw [hp1, hlen1, hmax]
    omega
  have hc2 : retrieveMaxChars <
      (0 + ({ text := List.replicate 7900 'a', score := 1,
              filename := "a.md" } : ScoredChunk).text.length) +
        ({ text := List.replicate 200 'b', score := 1,
           filename := "a.md" } : ScoredChunk).text.length := by
    rw [hp1, hp2, hlen1, hlen2, hmax]
    omega
  have hc3 : ¬ (100 < (retrieveMaxChars : ℤ) -
      ((0 + ({ text := List.replicate 7900 'a', score := 1,
               filename := "a.md" } : ScoredChunk).text.length : ℕ) : ℤ)) := by
    rw [hp1, hlen1, hmax]
    norm_num
  have hc3' : (100 : ℤ) ≤ (retrieveMaxChars : ℤ) -
      ((0 + ({ text := List.replicate 7900 'a', score := 1,
               filename := "a.md" } : ScoredChunk).text.length : ℕ) : ℤ) := by
    rw [hp1, hlen1, hmax]
    norm_num
  have htake : ((retrieveMaxChars : ℤ) -
      ((0 + ({ text := List.replicate 7900 'a', score := 1,
               filename := "a.md" } : ScoredChunk).text.length : ℕ) : ℤ)).toNat
      = 100 := by
    rw [hp1, hlen1, hmax]
    decide
  have hbp : buildParts retrieveMaxChars
      [{ text := List.replicate 7900 'a', score := 1, filename := "a.md" },
       { text := List.replicate 200 'b', score := 1, filename := "a.md" }] 0 =
      [renderPart "a.md" (List.replicate 7900 'a')] := by
    rw [buildParts_cons_fits _ _ _ _ hc1]
    rw [buildParts_cons_stop _ _ _ _ hc2 hc3]
  have hbpc : buildPartsClaim retrieveMaxChars
      [{ text := List.replicate 7900 'a', score := 1, filename := "a.md" },
       { text := List.replicate 200 'b', score := 1, filename := "a.md" }] 0 =
      [renderPart "a.md" (List.replicate 7900 'a'),
       renderPart "a.md" ((List.replicate 200 'b').take 100 ++ "...".toList)] := by
    rw [buildPartsClaim_cons_fits _ _ _ _ hc1]
    rw [buildPartsClaim_cons_trunc _ _ _ _ hc2 hc3']
    rw [htake]
    rfl
  have hr : retrieve
      [{ filename := "a.md",
         chunks := [{ text := List.replicate 7900 'a', keywords := ["foo"] },
                    { text := List.replicate 200 'b', keywords := ["foo"] }] }]
      ["foo"] = renderPart "a.md" (List.replicate 7900 'a') := by
    unfold retrieve
    rw [if_neg (by decide), if_neg (by decide)]
    rw [hsel, if_neg (by decide), hbp]
    rfl
  have hrc : retrieveClaim
      [{ filename := "a.md",
         chunks := [{ text := List.replicate 7900 'a', keywords := ["foo"] },
                    { text := List.replicate 200 'b', keywords := ["foo"] }] }]
      ["foo"] = renderPart "a.md" (List.replicate 7900 'a') ++
        ('\n' :: ['\n']) ++
        renderPart "a.md" ((List.replicate 200 'b').take 100 ++ "...".toList) := by
    unfold retrieveClaim
    rw [if_neg (by decide), if_neg (by decide)]
    rw [hsel, if_neg (by decide), hbpc]
    rfl
  intro h
  rw [hr, hrc] at h
  rw [List.append_assoc, List.cons_append] at h
  exact self_ne_append_cons _ _ _ h

/-- The first character of a stripped string is not whitespace. -/
theorem pyStrip_head? {l : PyStr} {c : Char}
    (h : (pyStrip l).head? = some c) : pyWS c = false := by
  unfold pyStrip at h
  rw [List.head?_reverse] at h
  have hne : (l.dropWhile pyWS).reverse.dropWhile pyWS ≠ [] := by
    intro hcon
    rw [hcon] at h
    exact Option.noConfusion h
  rw [getLast?_dropWhile hne, List.getLast?_reverse] at h
  exact head?_dropWhile_not h

/-- The last character of a stripped string is not whitespace. -/
theorem pyStrip_getLast? {l : PyStr} {c : Char}
    (h : (pyStrip l).getLast? = some c) : pyWS c = false := by
  unfold pyStrip at h
  rw [List.getLast?_reverse] at h
  exact head?_dropWhile_not h

/-- A list whose head fails the predicate survives `dropWhile` intact. -/
theorem dropWhile_eq_self_of_head? {p : Char → Bool} {l : PyStr}
    (h : ∀ c, l.head? = some c → p c = false) : l.dropWhile p = l := by
  cases l with
  | nil => rfl
  | cons a t => rw [List.dropWhile_cons, if_neg (by simp [h a rfl])]

/-- Stripping is the identity on strings with non-whitespace ends. -/
theorem pyStrip_eq_self {l : PyStr}
    (h1 : ∀ c, l.head? = some c → pyWS c = false)
    (h2 : ∀ c, l.getLast? = some c → pyWS c = false) : pyStrip l = l := by
  unfold pyStrip
  rw [dropWhile_eq_self_of_head? h1]
  rw [dropWhile_eq_self_of_head?
    (fun c hc => h2 c (by rwa [List.head?_reverse] at hc))]
  exact List.reverse_reverse l

/-- Splitting never produces an empty list of pieces. -/
theorem splitChar_ne_nil (sep : Char) (l : PyStr) : splitChar sep l ≠ [] := by
  cases l with
  | nil => simp [splitChar]
  | cons c rest =>
    by_cases h : c = sep
    · simp [splitChar, h]
    · simp only [splitChar, if_neg h]
      rcases splitChar sep rest with _ | ⟨a, as⟩ <;> simp

/-- Pieces of a split do not contain the separator. -/
theorem mem_splitChar_not_sep {sep : Char} {l : PyStr} {p : PyStr}
    (h : p ∈ splitChar sep l) : sep ∉ p := by
  induction l generalizing p with
  | nil =>
    simp [splitChar] at h
    subst h
    simp
  | cons c rest ih =>
    by_cases hc : c = sep
    · simp only [splitChar, if_pos hc] at h
      rcases List.mem_cons.1 h with h1 | h2
      · subst h1
        simp
      · exact ih h2
    · simp only [splitChar, if_neg hc] at h
      rcases hs : splitChar sep rest with _ | ⟨a, as⟩
      · exact absurd hs (splitChar_ne_nil sep rest)
      · rw [hs] at h
        rcases List.mem_cons.1 h with h1 | h2
        · subst h1
          intro hmem
          rcases List.mem_cons.1 hmem with hm1 | hm2
          · exact hc hm1.symm
          · exact ih (by rw [hs]; exact List.mem_cons_self a as) hm2
        · exact ih (by rw [hs]; exact List.mem_cons_of_mem _ h2)

/-- Splitting after a separator-free block peels the block off. -/
theorem splitChar_append_cons {sep : Char} {b : PyStr} (h : sep ∉ b)
    (l : PyStr) : splitChar sep (b ++ sep :: l) = b :: splitChar sep l := by
  induction b with
  | nil => simp [splitChar]
  | cons c t ih =>
    have hc : ¬ c = sep := by
      intro hcon
      exact h (by rw [hcon]; exact List.mem_cons_self _ _)
    have iht := ih (fun hm => h (List.mem_cons_of_mem _ hm))
    rw [List.cons_append]
    simp only [splitChar, if_neg hc]
    rw [iht]

/-- A separator-free string splits into itself. -/
theorem splitChar_no_sep {sep : Char} {b : PyStr} (h : sep ∉ b) :
    splitChar sep b = [b] := by
  induction b with
  | nil => rfl
  | cons c t ih =>
    have hc : ¬ c = sep := by
      intro hcon
      exact h (by rw [hcon]; exact List.mem_cons_self _ _)
    simp only [splitChar, if_neg hc]
    rw [ih (fun hm => h (List.mem_cons_of_mem _ hm))]

/-- Splitting a joined list of separator-free pieces recovers the pieces. -/
theorem splitChar_joinSep {sep : Char} (bs : List PyStr) (hne : bs ≠ [])
    (h : ∀ b ∈ bs, sep ∉ b) : splitChar sep (joinSep sep bs) = bs := by
  induction bs with
  | nil => exact absurd rfl hne
  | cons b rest ih =>
    cases rest with
    | nil =>
      simp only [joinSep]
      rw [splitChar_no_sep (h b (List.mem_cons_self _ _))]
    | cons c rest' =>
      simp only [joinSep]
      rw [splitChar_append_cons (h b (List.mem_cons_self _ _))]
      rw [ih (by simp) (fun x hx => h x (List.mem_cons_of_mem _ hx))]

/-- A join headed by a non-empty piece is non-empty. -/
theorem joinSep_ne_nil {sep : Char} {b : PyStr} (rest : List PyStr)
    (hb : b ≠ []) : joinSep sep (b :: rest) ≠ [] := by
  cases rest with
  | nil => simpa [joinSep] using hb
  | cons c rest' =>
    simp only [joinSep]
    intro hcon
    rcases List.append_eq_nil.1 hcon with ⟨_, h2⟩
    exact List.noConfusion h2

/-- The head of a join is the head of its first piece. -/
theorem joinSep_head? {sep : Char} (b : PyStr) (rest : List PyStr)
    (hb : b ≠ []) : (joinSep sep (b :: rest)).head? = b.head? := by
  cases rest with
  | nil => rfl
  | cons c rest' =>
    simp only [joinSep]
    rw [List.head?_append_of_ne_nil _ hb]

/-- The last element of a join of non-empty pieces is the last element of
its last piece. -/
theorem joinSep_getLast? {sep : Char} (bs : List PyStr) (bL : PyStr)
    (hlast : bs.getLast? = some bL) (hall : ∀ x ∈ bs, x ≠ []) :
    (joinSep sep bs).getLast? = bL.getLast? := by
  induction bs with
  | nil => simp at hlast
  | cons b rest ih =>
    cases rest with
    | nil =>
      have hbL : b = bL := by simpa using hlast
      subst hbL
      rfl
    | cons c rest' =>
      have hlast' : (c :: rest').getLast? = some bL := by
        rw [← List.getLast?_cons_cons (l := rest')]
        exact hlast
      have hc : c ≠ [] := hall c (List.mem_cons_of_mem _ (List.mem_cons_self _ _))
      have hj := ih hlast' (fun x hx => hall x (List.mem_cons_of_mem _ hx))
      simp only [joinSep]
      rw [List.getLast?_append_of_ne_nil _ (by simp)]
      rcases hjoin : joinSep sep (c :: rest') with _ | ⟨y, ys⟩
      · exact absurd hjoin (joinSep_ne_nil rest' hc)
      · rw [hjoin] at hj
        rw [List.getLast?_cons_cons]
        exact hj

/-- A bullet line starts with a non-whitespace marker character. -/
theorem bullet_head {b : PyStr} (hb : isBulletLine b = true) :
    ∃ c t, b = c :: t ∧ pyWS c = false := by
  rcases b with _ | ⟨c, t⟩
  · simp [isBulletLine, dashSpace, mojibakeBullet, starSpace,
      List.isPrefixOf] at hb
  · refine ⟨c, t, rfl, ?_⟩
    simp only [isBulletLine, Bool.or_eq_true] at hb
    rcases hb with (h | h) | h
    · simp only [dashSpace, List.isPrefixOf, Bool.and_eq_true, beq_iff_eq] at h
      obtain ⟨hc, -⟩ := h
      subst hc
      decide
    · simp only [mojibakeBullet, List.isPrefixOf, Bool.and_eq_true,
        beq_iff_eq] at h
      obtain ⟨hc, -⟩ := h
      subst hc
      decide
    · simp only [starSpace, List.isPrefixOf, Bool.and_eq_true, beq_iff_eq] at h
      obtain ⟨hc, -⟩ := h
      subst hc
      decide

/-- Bullet lines are non-empty. -/
theorem bullet_ne_nil {b : PyStr} (h : isBulletLine b = true) : b ≠ [] := by
  obtain ⟨c, t, hbc, -⟩ := bullet_head h
  rw [hbc]
  simp

/-- Extending a bullet line on the right keeps it a bullet line. -/
theorem isBulletLine_append {b : PyStr} (x : PyStr)
    (h : isBulletLine b = true) : isBulletLine (b ++ x) = true := by
  simp only [isBulletLine, Bool.or_eq_true] at h ⊢
  rcases h with (h | h) | h
  · refine Or.inl (Or.inl ?_)
    rw [List.isPrefixOf_iff_prefix] at h ⊢
    exact h.trans (List.prefix_append _ _)
  · refine Or.inl (Or.inr ?_)
    rw [List.isPrefixOf_iff_prefix] at h ⊢
    exact h.trans (List.prefix_append _ _)
  · refine Or.inr ?_
    rw [List.isPrefixOf_iff_prefix] at h ⊢
    exact h.trans (List.prefix_append _ _)

/-- A `"- "`-headed string is a bullet line. -/
theorem isBulletLine_dashSpace_append (x : PyStr) :
    isBulletLine (dashSpace ++ x) = true := by
  simp only [isBulletLine, Bool.or_eq_true]
  refine Or.inl (Or.inl ?_)
  rw [List.isPrefixOf_iff_prefix]
  exact List.prefix_append _ _

/-- The remainder returned by `splitFirst` is made of original characters. -/
theorem mem_splitFirst_rest {sep : Char} {l r : PyStr} {c : Char}
    (h : (splitFirst sep l).2 = some r) (hc : c ∈ r) : c ∈ l := by
  induction l generalizing r with
  | nil => simp [splitFirst] at h
  | cons a t ih =>
    by_cases ha : a = sep
    · simp only [splitFirst, if_pos ha] at h
      have : t = r := by simpa using h
      subst this
      exact List.mem_cons_of_mem _ hc
    · simp only [splitFirst, if_neg ha] at h
      exact List.mem_cons_of_mem _ (ih h hc)

/-- One formatting-loop iteration preserves bullet well-formedness. -/
theorem procLine_good (acc : List PyStr) (raw : PyStr)
    (hacc : ∀ b ∈ acc, goodBullet b) (hraw : '\n' ∉ raw) :
    ∀ b ∈ procLine acc raw, goodBullet b := by
  intro b hb
  rcases hline : pyStrip raw with _ | ⟨c, t⟩
  · simp only [procLine, hline] at hb
    exact hacc b hb
  · simp only [procLine, hline] at hb
    have hmemraw : ∀ x, x ∈ (c :: t : PyStr) → x ∈ raw := by
      intro x hx
      exact mem_pyStrip (hline ▸ hx)
    by_cases hbul : isBulletLine (c :: t) = true
    · rw [if_pos hbul] at hb
      rcases List.mem_cons.1 hb with h1 | h2
      · subst h1
        refine ⟨hbul, fun hm => hraw (hmemraw _ hm), Or.inr ?_⟩
        intro d hd
        exact pyStrip_getLast? (l := raw) (by rw [hline]; exact hd)
      · exact hacc b h2
    · rw [if_neg hbul] at hb
      by_cases hnum : (pyIsDigit c && ((c :: t : PyStr).take 3).contains '.') = true
      · rw [if_pos hnum] at hb
        rcases hsp : (splitFirst '.' (c :: t)).2 with _ | r
        · simp only [hsp] at hb
          exact hacc b hb
        · simp only [hsp] at hb
          rcases List.mem_cons.1 hb with h1 | h2
          · subst h1
            refine ⟨isBulletLine_dashSpace_append _, ?_, ?_⟩
            · intro hm
              rcases List.mem_append.1 hm with hm1 | hm2
              · simp [dashSpace] at hm1
              · exact hraw (hmemraw _ (mem_splitFirst_rest hsp (mem_pyStrip hm2)))
            · rcases hstrip : pyStrip r with _ | ⟨d, s⟩
              · left
                rw [List.append_nil]
              · right
                intro e he
                rw [List.getLast?_append_of_ne_nil _ (by simp)] at he
                exact pyStrip_getLast? (l := r) (by rw [hstrip]; exact he)
          · exact hacc b h2
      · rw [if_neg hnum] at hb
        rcases acc with _ | ⟨b0, bs⟩
        · simp at hb
        · have hb' : b ∈ (b0 ++ ' ' :: (c :: t)) :: bs := hb
          rcases List.mem_cons.1 hb' with h1 | h2
          · subst h1
            have hg0 := hacc b0 (List.mem_cons_self _ _)
            refine ⟨isBulletLine_append _ hg0.1, ?_, Or.inr ?_⟩
            · intro hm
              rcases List.mem_append.1 hm with hm1 | hm2
              · exact hg0.2.1 hm1
              · rcases List.mem_cons.1 hm2 with hm3 | hm4
                · exact absurd hm3 (by decide)
                · exact hraw (hmemraw _ hm4)
            · intro d hd
              rw [List.getLast?_append_of_ne_nil _ (by simp),
                List.getLast?_cons_cons] at hd
              exact pyStrip_getLast? (l := raw) (by rw [hline]; exact hd)
          · exact hacc b (List.mem_cons_of_mem _ h2)

/-- Folding the formatting loop over newline-free lines preserves bullet
well-formedness. -/
theorem foldl_procLine_good (lines : List PyStr) :
    ∀ acc, (∀ l ∈ lines, '\n' ∉ l) → (∀ b ∈ acc, goodBullet b) →
      ∀ b ∈ lines.foldl procLine acc, goodBullet b := by
  induction lines with
  | nil =>
    intro acc _ hacc
    simpa using hacc
  | cons l ls ih =>
    intro acc hl hacc
    rw [List.foldl_cons]
    exact ih _ (fun x hx => hl x (List.mem_cons_of_mem _ hx))
      (procLine_good acc l hacc (hl l (List.mem_cons_self _ _)))

/-- Every bullet point `_format_hint` returns is well-formed. -/
theorem hintBullets_good (t : PyStr) : ∀ b ∈ hintBullets t, goodBullet b := by
  intro b hb
  unfold hintBullets at hb
  have hb1 : b ∈ ((splitChar '\n' (pyStrip t)).foldl procLine []).reverse :=
    List.take_subset _ _ hb
  rw [List.mem_reverse] at hb1
  exact foldl_procLine_good _ []
    (fun l hl => mem_splitChar_not_sep hl) (by simp) b hb1

/-- The bullet list is truncated to at most three entries. -/
theorem hintBullets_length_le (t : PyStr) : (hintBullets t).length ≤ 3 := by
  unfold hintBullets
  rw [List.length_take]
  exact min_le_left _ _

/-- Well-formed bullets other than the bare `"- "` are strip-stable. -/
theorem goodBullet_strip_self {b : PyStr} (hg : goodBullet b)
    (hne : b ≠ dashSpace) : pyStrip b = b := by
  obtain ⟨hbul, hnl, hor⟩ := hg
  obtain ⟨c, t, hbc, hc⟩ := bullet_head hbul
  apply pyStrip_eq_self
  · intro d hd
    rw [hbc] at hd
    have : c = d := by simpa using hd
    subst this
    exact hc
  · intro d hd
    rcases hor with h1 | h2
    · exact absurd h1 hne
    · exact h2 d hd

/-- Strip-stable non-empty bullet lines pass through the formatting loop
unchanged. -/
theorem foldl_procLine_keep (bs : List PyStr)
    (h : ∀ b ∈ bs, pyStrip b = b ∧ isBulletLine b = true ∧ b ≠ []) :
    ∀ acc, bs.foldl procLine acc = bs.reverse ++ acc := by
  induction bs with
  | nil =>
    intro acc
    simp
  | cons b rest ih =>
    intro acc
    rw [List.foldl_cons]
    obtain ⟨hstrip, hbul, hne⟩ := h b (List.mem_cons_self _ _)
    have hproc : procLine acc b = b :: acc := by
      rcases hbc : b with _ | ⟨c, t⟩
      · exact absurd hbc hne
      · rw [hbc] at hstrip hbul
        simp only [procLine, hstrip]
        rw [if_pos hbul]
    rw [hproc, ih (fun x hx => h x (List.mem_cons_of_mem _ hx))]
    simp

/-- The formatter is the identity on a join of at most three well-formed
bullets none of which is the bare `"- "`. -/
theorem formatHint_joinSep_fixed (bs : List PyStr)
    (hlen : bs.length ≤ maxHintPoints)
    (hgood : ∀ b ∈ bs, goodBullet b) (hnd : ∀ b ∈ bs, b ≠ dashSpace) :
    formatHint (joinSep '\n' bs) = joinSep '\n' bs := by
  rcases bs with _ | ⟨b0, rest⟩
  · rfl
  · have hb0 := hgood b0 (List.mem_cons_self _ _)
    have hb0ne : b0 ≠ [] := bullet_ne_nil hb0.1
    have hstrip : pyStrip (joinSep '\n' (b0 :: rest)) =
        joinSep '\n' (b0 :: rest) := by
      apply pyStrip_eq_self
      · intro c hc
        rw [joinSep_head? b0 rest hb0ne] at hc
        obtain ⟨c0, t0, hbc, hcw⟩ := bullet_head hb0.1
        rw [hbc] at hc
        have : c0 = c := by simpa using hc
        subst this
        exact hcw
      · intro c hc
        have hlast : (b0 :: rest).getLast? =
            some ((b0 :: rest).getLast (by simp)) :=
          List.getLast?_eq_getLast _ _
        have hbLmem : (b0 :: rest).getLast (by simp) ∈ b0 :: rest :=
          List.getLast_mem _
        have hbLgood := hgood _ hbLmem
        rw [joinSep_getLast? _ _ hlast
          (fun x hx => bullet_ne_nil (hgood x hx).1)] at hc
        rcases hbLgood.2.2 with h1 | h2
        · exact absurd h1 (hnd _ hbLmem)
        · exact h2 c hc
    unfold formatHint hintBullets
    rw [hstrip]
    rw [splitChar_joinSep _ (by simp) (fun b hb => (hgood b hb).2.1)]
    rw [foldl_procLine_keep _ (fun b hb =>
      ⟨goodBullet_strip_self (hgood b hb) (hnd b hb), (hgood b hb).1,
        bullet_ne_nil (hgood b hb).1⟩) []]
    rw [List.append_nil, List.reverse_reverse]
    rw [List.take_all_of_le hlen]

/-- Claim C3, counterexample.  Idempotence fails: the input `"1."` formats
to the bare bullet `"- "`, which a second pass erases entirely.  Moreover
an output line may begin with `"* "` rather than `"- "`: bullets marked
`"* "` are kept verbatim. -/
theorem c3_format_hint_counterexample :
    formatHint (formatHint "1.".toList) ≠ formatHint "1.".toList ∧
      formatHint "* x".toList = ['*', ' ', 'x'] := by
  decide

/-- Claim C3, amended.  The formatted output consists of the bullet list
`hintBullets t`: at most 3 non-empty newline-separated lines, each
beginning with one of the markers `"- "`, the source's mojibake bullet
literal, or `"* "` (not necessarily `"- "`); and formatting is idempotent
for every input whose bullet list contains no bare `"- "` bullet (the bare
bullet, produced only by a numbered line with nothing after the dot, is
erased by a second pass — see the counterexample). -/
theorem c3_format_hint_amended (t : PyStr) :
    ((splitChar '\n' (formatHint t)).filter (fun l => !l.isEmpty) =
        hintBullets t ∧
      (hintBullets t).length ≤ 3 ∧
      ∀ b ∈ hintBullets t, b ≠ [] ∧ isBulletLine b = true) ∧
    ((∀ b ∈ hintBullets t, b ≠ dashSpace) →
      formatHint (formatHint t) = formatHint t) := by
  have hgood := hintBullets_good t
  refine ⟨⟨?_, hintBullets_length_le t,
    fun b hb => ⟨bullet_ne_nil (hgood b hb).1, (hgood b hb).1⟩⟩, ?_⟩
  · rcases hbs : hintBullets t with _ | ⟨b, rest⟩
    · unfold formatHint
      rw [hbs]
      rfl
    · unfold formatHint
      rw [hbs]
      rw [splitChar_joinSep _ (by simp)
        (fun x hx => (hgood x (hbs ▸ hx)).2.1)]
      exact List.filter_eq_self.mpr (fun x hx => by
        simpa using bullet_ne_nil (hgood x (hbs ▸ hx)).1)
  · intro hnd
    have h2 : formatHint t = joinSep '\n' (hintBullets t) := rfl
    rw [h2]
    exact formatHint_joinSep_fixed _ (hintBullets_length_le t) hgood hnd

/-- Witness for the idempotence part of `c3_format_hint_amended` on a
concrete three-line hint. -/
theorem c3_format_hint_amended_witness :
    (∀ b ∈ hintBullets "- alpha\nbeta\n1. gamma".toList, b ≠ dashSpace) ∧
      formatHint (formatHint "- alpha\nbeta\n1. gamma".toList) =
        formatHint "- alpha\nbeta\n1. gamma".toList :=
  ⟨by decide, (c3_format_hint_amended "- alpha\nbeta\n1. gamma".toList).2
    (by decide)⟩

end Assistant
